import Mathlib

/-!
# Verification of the web-gdb MI protocol engine

A shallow embedding in Lean 4 of the MI value parser (`mi_parse.py`), the
GDB/MI session controller (`gdbmi.py`) and the breakpoint-toggle endpoint
(`app.py`) of the web-gdb repository, together with theorems settling the
specification claims about them.

Conventions of the embedding:
* Python strings are `List Char` (wrapped into `String` at the interface).
  Only ASCII whitespace is modelled for `str.strip` / `int(s, 16)`.
* A Python function that may raise an exception is modelled as returning
  `Option`; `none` means "raises".
* The recursive parser `parse_value` is embedded with an explicit fuel
  parameter so that it is structurally recursive and kernel-computable; the
  public wrapper supplies fuel `2 * length + 2`, which is proved sufficient
  (`parseValueF_stable`).
* Timeouts (seconds in the source: 2.0 and 5.0) are carried as `Nat`.
-/

namespace WebGdb

/-! ## Basic string utilities (Python `str.strip`, ASCII fragment) -/

/-- ASCII whitespace, as recognised by Python's `str.strip()` on the
characters that can occur in MI protocol lines. -/
def pyIsSpace (c : Char) : Bool :=
  c == ' ' || c == '\t' || c == '\n' || c == '\r' || c == '\x0b' || c == '\x0c'

/-- `str.strip()` on a character list: drop whitespace from both ends. -/
def stripList (cs : List Char) : List Char :=
  ((cs.dropWhile pyIsSpace).reverse.dropWhile pyIsSpace).reverse

theorem stripList_length_le (cs : List Char) : (stripList cs).length ≤ cs.length := by
  unfold stripList
  calc ((cs.dropWhile pyIsSpace).reverse.dropWhile pyIsSpace).reverse.length
      = ((cs.dropWhile pyIsSpace).reverse.dropWhile pyIsSpace).length := by
        simp
    _ ≤ (cs.dropWhile pyIsSpace).reverse.length :=
        (List.dropWhile_sublist _).length_le
    _ = (cs.dropWhile pyIsSpace).length := by simp
    _ ≤ cs.length := (List.dropWhile_sublist _).length_le

theorem mem_stripList {c : Char} {cs : List Char} (h : c ∈ stripList cs) : c ∈ cs := by
  unfold stripList at h
  rw [List.mem_reverse] at h
  have h1 := (List.dropWhile_sublist (l := (cs.dropWhile pyIsSpace).reverse)
    (p := pyIsSpace)).mem h
  rw [List.mem_reverse] at h1
  exact (List.dropWhile_sublist (l := cs) (p := pyIsSpace)).mem h1

/-! ## `_split_top` (mi_parse.py, lines 3–39)

Split a fragment at separators that are at bracket depth 0 and outside any
quoted string.  The scanner state is `(out, buf, depth, in_str, esc)` exactly
as in the source. -/

/-- In-string scanner update for `in_str`: `if esc: esc=False` (string stays
open); `elif ch=='\\': esc=True`; `elif ch=='"': in_str=False`. -/
def inStrStep (c : Char) (esc : Bool) : Bool :=
  if esc then true else if c = '\\' then true else if c = '"' then false else true

/-- In-string scanner update for `esc`. -/
def escStep (c : Char) (esc : Bool) : Bool :=
  if esc then false else c == '\\'

/-- Depth update: `if ch in "{[": depth += 1; elif ch in "}]": depth -= 1`. -/
def depthStep (c : Char) (depth : Int) : Int :=
  if c = '{' ∨ c = '[' then depth + 1 else if c = '}' ∨ c = ']' then depth - 1 else depth

def splitTopGo (sep : Char) : List Char → List (List Char) → List Char → Int → Bool → Bool →
    List (List Char)
  | [], out, buf, _, _, _ =>
      -- tail = "".join(buf).strip(); if tail: out.append(tail)
      let tail := stripList buf
      if tail = [] then out else out ++ [tail]
  | c :: cs, out, buf, depth, inStr, esc =>
      if inStr then
        -- buf.append(ch); update esc / in_str
        splitTopGo sep cs out (buf ++ [c]) depth (inStrStep c esc) (escStep c esc)
      else if c = '"' then
        splitTopGo sep cs out (buf ++ [c]) depth true esc
      else if c = sep ∧ depthStep c depth = 0 then
        splitTopGo sep cs (out ++ [stripList buf]) [] (depthStep c depth) inStr esc
      else
        splitTopGo sep cs out (buf ++ [c]) (depthStep c depth) inStr esc

/-- `_split_top(s, sep)`. -/
def splitTop (sep : Char) (s : List Char) : List (List Char) :=
  splitTopGo sep s [] [] 0 false false

/-- Weighted total length of the pieces; each piece also counts its
(consumed) separator. -/
def sumLen1 (ps : List (List Char)) : Nat :=
  ps.foldr (fun p a => p.length + 1 + a) 0

theorem sumLen1_append (ps qs : List (List Char)) :
    sumLen1 (ps ++ qs) = sumLen1 ps + sumLen1 qs := by
  induction ps with
  | nil => simp [sumLen1]
  | cons p ps ih => simp [sumLen1] at *; omega

theorem mem_sumLen1 {p : List Char} {ps : List (List Char)} (h : p ∈ ps) :
    p.length + 1 ≤ sumLen1 ps := by
  induction ps with
  | nil => cases h
  | cons q qs ih =>
      rcases List.mem_cons.mp h with h | h
      · subst h; simp [sumLen1]
      · have := ih h
        simp [sumLen1] at *
        omega

theorem splitTopGo_sumLen (sep : Char) (cs : List Char) :
    ∀ out buf depth inStr esc,
      sumLen1 (splitTopGo sep cs out buf depth inStr esc) ≤
        sumLen1 out + buf.length + cs.length + 1 := by
  induction cs with
  | nil =>
      intro out buf depth inStr esc
      simp only [splitTopGo]
      split
      · simp; omega
      · rw [sumLen1_append]
        have := stripList_length_le buf
        simp [sumLen1]
        omega
  | cons c cs ih =>
      intro out buf depth inStr esc
      simp only [splitTopGo]
      split
      · have := ih out (buf ++ [c]) depth (inStrStep c esc) (escStep c esc)
        simp at this ⊢
        omega
      · split
        · have := ih out (buf ++ [c]) depth true esc
          simp at this ⊢
          omega
        · split
          · have := ih (out ++ [stripList buf]) [] (depthStep c depth) inStr esc
            rw [sumLen1_append] at this
            have h2 := stripList_length_le buf
            simp [sumLen1] at this ⊢
            omega
          · have := ih out (buf ++ [c]) (depthStep c depth) inStr esc
            simp at this ⊢
            omega

theorem splitTop_sumLen (sep : Char) (s : List Char) :
    sumLen1 (splitTop sep s) ≤ s.length + 1 := by
  have := splitTopGo_sumLen sep s [] [] 0 false false
  simpa [splitTop, sumLen1] using this

theorem splitTop_piece_length {sep : Char} {s p : List Char} (h : p ∈ splitTop sep s) :
    p.length ≤ s.length := by
  have h1 := mem_sumLen1 h
  have h2 := splitTop_sumLen sep s
  omega

theorem splitTopGo_chars (sep : Char) (cs : List Char) :
    ∀ out buf depth inStr esc p c, p ∈ splitTopGo sep cs out buf depth inStr esc →
      c ∈ p → c ∈ cs ∨ c ∈ buf ∨ ∃ q ∈ out, c ∈ q := by
  induction cs with
  | nil =>
      intro out buf depth inStr esc p c hp hc
      simp only [splitTopGo] at hp
      split at hp
      · exact Or.inr (Or.inr ⟨p, hp, hc⟩)
      · rw [List.mem_append] at hp
        rcases hp with hp | hp
        · exact Or.inr (Or.inr ⟨p, hp, hc⟩)
        · simp at hp
          subst hp
          exact Or.inr (Or.inl (mem_stripList hc))
  | cons a cs ih =>
      intro out buf depth inStr esc p c hp hc
      simp only [splitTopGo] at hp
      split at hp
      · rcases ih _ _ _ _ _ p c hp hc with h | h | h
        · exact Or.inl (List.mem_cons_of_mem _ h)
        · rw [List.mem_append] at h
          rcases h with h | h
          · exact Or.inr (Or.inl h)
          · simp at h; subst h; exact Or.inl (List.mem_cons_self _ _)
        · exact Or.inr (Or.inr h)
      · split at hp
        · rcases ih _ _ _ _ _ p c hp hc with h | h | h
          · exact Or.inl (List.mem_cons_of_mem _ h)
          · rw [List.mem_append] at h
            rcases h with h | h
            · exact Or.inr (Or.inl h)
            · simp at h; subst h; exact Or.inl (List.mem_cons_self _ _)
          · exact Or.inr (Or.inr h)
        · split at hp
          · rcases ih _ _ _ _ _ p c hp hc with h | h | h
            · exact Or.inl (List.mem_cons_of_mem _ h)
            · cases h
            · rcases h with ⟨q, hq, hcq⟩
              rw [List.mem_append] at hq
              rcases hq with hq | hq
              · exact Or.inr (Or.inr ⟨q, hq, hcq⟩)
              · simp at hq
                subst hq
                exact Or.inr (Or.inl (mem_stripList hcq))
          · rcases ih _ _ _ _ _ p c hp hc with h | h | h
            · exact Or.inl (List.mem_cons_of_mem _ h)
            · rw [List.mem_append] at h
              rcases h with h | h
              · exact Or.inr (Or.inl h)
              · simp at h; subst h; exact Or.inl (List.mem_cons_self _ _)
            · exact Or.inr (Or.inr h)

theorem splitTop_chars {sep : Char} {s p : List Char} {c : Char}
    (hp : p ∈ splitTop sep s) (hc : c ∈ p) : c ∈ s := by
  rcases splitTopGo_chars sep s [] [] 0 false false p c hp hc with h | h | h
  · exact h
  · cases h
  · rcases h with ⟨q, hq, _⟩; cases hq

/-! ## `part.split("=", 1)` : split at the first occurrence of a character -/

def breakAtFirst (t : Char) : List Char → Option (List Char × List Char)
  | [] => none
  | c :: cs =>
      if c = t then some ([], cs)
      else match breakAtFirst t cs with
        | some (a, b) => some (c :: a, b)
        | none => none

theorem breakAtFirst_length {t : Char} : ∀ {l a b : List Char},
    breakAtFirst t l = some (a, b) → a.length + 1 + b.length = l.length := by
  intro l
  induction l with
  | nil => intro a b h; simp [breakAtFirst] at h
  | cons c cs ih =>
      intro a b h
      simp only [breakAtFirst] at h
      split at h
      · simp at h
        obtain ⟨rfl, rfl⟩ := h
        simp
        omega
      · rcases h2 : breakAtFirst t cs with _ | ⟨a', b'⟩ <;> rw [h2] at h
        · simp at h
        · simp at h
          obtain ⟨rfl, rfl⟩ := h
          have := ih h2
          simp
          omega

theorem breakAtFirst_chars {t : Char} : ∀ {l a b : List Char},
    breakAtFirst t l = some (a, b) → ∀ c, (c ∈ a → c ∈ l) ∧ (c ∈ b → c ∈ l) := by
  intro l
  induction l with
  | nil => intro a b h; simp [breakAtFirst] at h
  | cons x cs ih =>
      intro a b h c
      simp only [breakAtFirst] at h
      split at h
      · simp at h
        obtain ⟨rfl, rfl⟩ := h
        exact ⟨fun hc => absurd hc (List.not_mem_nil c), fun hc => List.mem_cons_of_mem _ hc⟩
      · rcases h2 : breakAtFirst t cs with _ | ⟨a', b'⟩ <;> rw [h2] at h
        · simp at h
        · simp at h
          obtain ⟨rfl, rfl⟩ := h
          refine ⟨fun hc => ?_, fun hc => List.mem_cons_of_mem _ ((ih h2 c).2 hc)⟩
          rcases List.mem_cons.mp hc with hc | hc
          · subst hc; exact List.mem_cons_self _ _
          · exact List.mem_cons_of_mem _ ((ih h2 c).1 hc)

/-! ## Python `int(s, 16)` (app.py / gdbmi.py call sites)

Optional surrounding whitespace, an optional single sign, an optional
`0x`/`0X` prefix (with one optional underscore right after it), then hex
digits in either case with single underscores allowed between digits. -/

def hexDigitVal (c : Char) : Option Nat :=
  if '0' ≤ c ∧ c ≤ '9' then some (c.toNat - 48)
  else if 'a' ≤ c ∧ c ≤ 'f' then some (c.toNat - 87)
  else if 'A' ≤ c ∧ c ≤ 'F' then some (c.toNat - 55)
  else none

def hexDigitsGo (acc : Nat) : List Char → Option Nat
  | [] => some acc
  | '_' :: c :: rest =>
      match hexDigitVal c with
      | some v => hexDigitsGo (16 * acc + v) rest
      | none => none
  | ['_'] => none
  | c :: rest =>
      match hexDigitVal c with
      | some v => hexDigitsGo (16 * acc + v) rest
      | none => none

/-- Hex digit run `d (('_')? d)*`; the first character must be a digit. -/
def hexDigitsRun : List Char → Option Nat
  | [] => none
  | c :: rest =>
      match hexDigitVal c with
      | some v => hexDigitsGo v rest
      | none => none

/-- `int(s, 16)`; `none` models `ValueError`. -/
def pyIntHex (s : String) : Option Int :=
  let cs := stripList s.data
  let (neg, cs1) : Bool × List Char :=
    match cs with
    | '-' :: r => (true, r)
    | '+' :: r => (false, r)
    | r => (false, r)
  let cs2 : List Char :=
    match cs1 with
    | '0' :: x :: r =>
        if x = 'x' ∨ x = 'X' then
          match r with
          | '_' :: r2 => r2
          | _ => r
        else '0' :: x :: r
    | r => r
  (hexDigitsRun cs2).map (fun n => if neg then -(n : Int) else (n : Int))

/-! ## Python `hex(n)` -/

def hexDigitChar (n : Nat) : Char :=
  if n < 10 then Char.ofNat (48 + n) else Char.ofNat (87 + n)

def natHexAux : Nat → Nat → List Char
  | 0, _ => []
  | f + 1, n => if n = 0 then [] else natHexAux f (n / 16) ++ [hexDigitChar (n % 16)]

def natHexStr (n : Nat) : String :=
  if n = 0 then "0" else String.mk (natHexAux n n)

/-- Python builtin `hex`: lowercase, `0x` prefix, `-0x` for negatives. -/
def pyHex (i : Int) : String :=
  if i < 0 then "-0x" ++ natHexStr (-i).toNat else "0x" ++ natHexStr i.toNat

/-! ## `bytes.fromhex` (snapshot memory decoding)

Pairs of hex digits; space separators are skipped between pairs; anything
else (including an odd trailing digit) raises `ValueError` (`none`). -/

def fromHexGo : List Char → Option (List Nat)
  | [] => some []
  | c :: cs =>
      if c = ' ' then fromHexGo cs
      else match cs with
        | [] => none
        | c2 :: rest =>
            match hexDigitVal c, hexDigitVal c2 with
            | some h, some l => (fromHexGo rest).map (fun bs => (16 * h + l) :: bs)
            | _, _ => none

def bytesFromHex (s : String) : Option (List Nat) := fromHexGo s.data

/-! ## `bytes(s, "utf-8").decode("unicode_escape")` (mi_parse.py `_unquote`)

The source first encodes the quoted interior as UTF-8 bytes and then decodes
those bytes with the `unicode_escape` codec, which treats non-escape bytes as
Latin-1 and interprets C-style backslash escapes.  `none` models the
`ValueError`/`UnicodeDecodeError` the codec raises on malformed escapes
(`\x`/`\u`/`\U` with too few hex digits, a lone trailing backslash, an
out-of-range `\U`).  `\N{...}` name escapes, which CPython resolves through
the Unicode name database, are modelled as a decode failure; GDB/MI output
never contains them.  Lone-surrogate code points (possible via `\u`) are
clamped by `Char.ofNat`; they never arise from MI output either. -/

def utf8Bytes (c : Char) : List Nat :=
  let n := c.toNat
  if n < 128 then [n]
  else if n < 2048 then [192 + n / 64, 128 + n % 64]
  else if n < 65536 then [224 + n / 4096, 128 + n / 64 % 64, 128 + n % 64]
  else [240 + n / 262144, 128 + n / 4096 % 64, 128 + n / 64 % 64, 128 + n % 64]

def utf8Encode (cs : List Char) : List Nat := (cs.map utf8Bytes).flatten

def hexValByte (b : Nat) : Option Nat :=
  if 48 ≤ b ∧ b ≤ 57 then some (b - 48)
  else if 97 ≤ b ∧ b ≤ 102 then some (b - 87)
  else if 65 ≤ b ∧ b ≤ 70 then some (b - 55)
  else none

/-- Consume exactly `k` hex-digit bytes, MSB first. -/
def takeHexBytes : Nat → Nat → List Nat → Option (Nat × List Nat)
  | 0, acc, bs => some (acc, bs)
  | k + 1, acc, bs =>
      match bs with
      | [] => none
      | b :: rest =>
          match hexValByte b with
          | some v => takeHexBytes k (16 * acc + v) rest
          | none => none

def isOctalByte (b : Nat) : Bool := decide (48 ≤ b ∧ b ≤ 55)

/-- One-shot escape of a single known escape byte, or `none` if the byte is
not a simple one-character escape. -/
def simpleEscape (e : Nat) : Option Nat :=
  if e = 92 then some 92        -- \\
  else if e = 39 then some 39   -- \'
  else if e = 34 then some 34   -- \"
  else if e = 98 then some 8    -- \b
  else if e = 102 then some 12  -- \f
  else if e = 116 then some 9   -- \t
  else if e = 110 then some 10  -- \n
  else if e = 114 then some 13  -- \r
  else if e = 118 then some 11  -- \v
  else if e = 97 then some 7    -- \a
  else none

/-- The `unicode_escape` decoder over byte lists, producing code points.
Fuel-driven so that it is structurally recursive; each step consumes at
least one byte, so fuel `length + 1` always suffices. -/
def uescGo : Nat → List Nat → Option (List Nat)
  | 0, _ => none
  | _ + 1, [] => some []
  | f + 1, b :: bs =>
      if b = 92 then
        match bs with
        | [] => none  -- "\ at end of string"
        | e :: rest =>
            if e = 10 then uescGo f rest  -- backslash-newline: line continuation
            else match simpleEscape e with
              | some v => (uescGo f rest).map (fun t => v :: t)
              | none =>
                  if isOctalByte e then
                    match rest with
                    | d2 :: rest2 =>
                        if isOctalByte d2 then
                          match rest2 with
                          | d3 :: rest3 =>
                              if isOctalByte d3 then
                                (uescGo f rest3).map
                                  (fun t => (64 * (e - 48) + 8 * (d2 - 48) + (d3 - 48)) :: t)
                              else
                                (uescGo f rest2).map (fun t => (8 * (e - 48) + (d2 - 48)) :: t)
                          | [] => (uescGo f []).map (fun t => (8 * (e - 48) + (d2 - 48)) :: t)
                        else (uescGo f rest).map (fun t => (e - 48) :: t)
                    | [] => (uescGo f []).map (fun t => (e - 48) :: t)
                  else if e = 120 then       -- \xHH : exactly two hex digits
                    match takeHexBytes 2 0 rest with
                    | some (v, r) => (uescGo f r).map (fun t => v :: t)
                    | none => none
                  else if e = 117 then       -- \uHHHH
                    match takeHexBytes 4 0 rest with
                    | some (v, r) => (uescGo f r).map (fun t => v :: t)
                    | none => none
                  else if e = 85 then        -- \UHHHHHHHH
                    match takeHexBytes 8 0 rest with
                    | some (v, r) =>
                        if v ≤ 1114111 then (uescGo f r).map (fun t => v :: t) else none
                    | none => none
                  else if e = 78 then none   -- \N{...}: modelled as failure
                  else (uescGo f rest).map (fun t => 92 :: e :: t)  -- unknown: kept verbatim
      else (uescGo f bs).map (fun t => b :: t)

def unicodeEscapeBytes (bs : List Nat) : Option (List Char) :=
  (uescGo (bs.length + 1) bs).map (fun cps => cps.map Char.ofNat)

/-- `_unquote(s)` (mi_parse.py, lines 41–45); `none` models the exception
raised by `unicode_escape` on malformed escapes. -/
def unquoteChars (s : List Char) : Option (List Char) :=
  if 2 ≤ s.length ∧ s.head? = some '"' ∧ s.getLast? = some '"' then
    unicodeEscapeBytes (utf8Encode ((s.drop 1).dropLast))
  else some s

/-! ## The MI value tree -/

/-- Generic MI value: string, ordered mapping (Python `dict`) or sequence
(Python `list`). -/
inductive Value where
  | string (s : String)
  | mapping (entries : List (String × Value))
  | sequence (items : List Value)

/-- Python `d[k] = v` on an insertion-ordered dict: replace in place if the
key exists, else append. -/
def dictInsert (d : List (String × Value)) (k : String) (v : Value) :
    List (String × Value) :=
  if d.any (fun kv => kv.1 == k) then
    d.map (fun kv => if kv.1 = k then (k, v) else kv)
  else d ++ [(k, v)]

/-! ## `parse_value` (mi_parse.py, lines 47–81)

The Python function recurses on substrings; the embedding threads an
explicit fuel argument (first, structurally decreasing) so the function is
kernel-computable.  `parse_value` below instantiates the fuel with
`2 * length + 2`, proved sufficient by `parseValueF_stable`. -/

/-- Loop body of the `{...}` branch: `for part in _split_top(inner, ","):
if "=" in part: k, vv = part.split("=", 1); d[k.strip()] = parse_value(vv)`.
Parts without `=` are skipped.  `pv` is the recursive parser at the smaller
fuel. -/
def mapPartsRun (pv : List Char → Option Value) :
    List (String × Value) → List (List Char) → Option (List (String × Value))
  | acc, [] => some acc
  | acc, part :: rest =>
      match breakAtFirst '=' part with
      | some (k, vv) =>
          match pv vv with
          | some pval => mapPartsRun pv (dictInsert acc (String.mk (stripList k)) pval) rest
          | none => none
      | none => mapPartsRun pv acc rest

/-- Loop body of the `[...]` branch: each element is `key=value` (wrapped in
a single-entry mapping) unless it starts with `{`; otherwise it is a bare
recursively parsed value. -/
def seqPartsRun (pv : List Char → Option Value) : List (List Char) → Option (List Value)
  | [] => some []
  | part :: rest =>
      let p := stripList part
      let item? : Option Value :=
        if p.contains '=' ∧ ¬ p.head? = some '{' then
          match breakAtFirst '=' p with
          | some (k, vv) => (pv vv).map (fun x => Value.mapping [(String.mk (stripList k), x)])
          | none => pv p  -- unreachable: `contains '='` guarantees the split succeeds
        else pv p
      match item? with
      | some item => (seqPartsRun pv rest).map (fun items => item :: items)
      | none => none

/-- `parse_value(v)` with explicit fuel; `none` models an exception. -/
def parseValueF : Nat → List Char → Option Value
  | 0, _ => none
  | f + 1, v0 =>
      let v := stripList v0
      match v with
      | [] => some (Value.string "")
      | c :: rest =>
          if c = '"' then
            (unquoteChars v).map (fun cs => Value.string (String.mk cs))
          else if c = '{' then
            let inner := stripList rest.dropLast
            if inner = [] then some (Value.mapping [])
            else (mapPartsRun (parseValueF f) [] (splitTop ',' inner)).map Value.mapping
          else if c = '[' then
            let inner := stripList rest.dropLast
            if inner = [] then some (Value.sequence [])
            else (seqPartsRun (parseValueF f) (splitTop ',' inner)).map Value.sequence
          else some (Value.string (String.mk v))

/-- Fuel that always suffices for `parseValueF` on `v` (`parseValueF_stable`). -/
def valueFuel (v : List Char) : Nat := 2 * v.length + 2

/-- `parse_value(s)`: the public entry point. -/
def parse_value (s : String) : Option Value := parseValueF (valueFuel s.data) s.data

/-! ## Records and session state (gdbmi.py)

A `Rec` is one parsed MI record as produced by `parse_mi_line` and queued by
the reader thread.  The payload of a structured record is an ordered mapping
from keys to `Value`s. -/

abbrev Payload := List (String × Value)

inductive Rec where
  | result (cls : String) (payload : Payload)
  | async (cls : String) (payload : Payload)
  | notify (cls : String) (payload : Payload)
  | stream (chan : String) (text : String)

def Rec.isResult : Rec → Bool
  | .result _ _ => true
  | _ => false

def Rec.isAsyncStopped : Rec → Bool
  | .async cls _ => cls == "stopped"
  | _ => false

/-- The mutable session fields touched by the correlation loops:
`self.last_stop` and `self.running` (`__init__`, gdbmi.py lines 10–19 also
sets `last_stop = {}` and `running = False`). -/
structure SessionState where
  lastStop : Payload
  running : Bool

/-- The state of a freshly constructed session (`__init__`). -/
def initSession : SessionState := { lastStop := [], running := false }

/-! ## The command correlation loop (`GdbMiSession.cmd`, lines 78–114)

The polling loop is modelled over the list of records drained from the queue
before the deadline elapses; exhausting the list models the deadline.  The
Python function returns the matched record, or on timeout the last `result`
record seen (`{}`, modelled as `none`, if there was none).  It never raises
once the command is written. -/

def cmdLoop (waitFor : String) : List Rec → SessionState → Option Rec →
    SessionState × Option Rec
  | [], st, lastResult => (st, lastResult)
  | r :: rest, st, lastResult =>
      match r with
      | .async cls payload =>
          -- track stop events
          if cls = "stopped" then
            cmdLoop waitFor rest { lastStop := payload, running := false } lastResult
          else
            cmdLoop waitFor rest st lastResult
      | .result cls _ =>
          if waitFor = cls then (st, some r)
          else if waitFor = "any" then (st, some r)  -- wildcard accepts any result
          else cmdLoop waitFor rest st (some r)
      | _ => cmdLoop waitFor rest st lastResult  -- notify/stream: consumed and discarded

/-- `cmd(mi_cmd, wait_for, timeout)` on an active session: fire-and-forget
when `wait_for is None`, else the polling loop.  The first component is the
resulting session state, the second the returned record (`none` = `{}`). -/
def cmdF (waitFor : Option String) (drained : List Rec) (st : SessionState) :
    SessionState × Option Rec :=
  match waitFor with
  | none => (st, none)
  | some w => cmdLoop w drained st none

/-- `_wait_for_stop` (lines 151–161): drain until an async `stopped` record
arrives (absorbing it into the state and returning), or the deadline elapses
(list exhausted). -/
def waitForStopLoop : List Rec → SessionState → SessionState
  | [], st => st
  | r :: rest, st =>
      match r with
      | .async cls payload =>
          if cls = "stopped" then { lastStop := payload, running := false }
          else waitForStopLoop rest st
      | _ => waitForStopLoop rest st

/-! ## Continuation operations (`run`/`cont`/`stepi`/`nexti`/`step`/`next`/
`finish`, lines 116–149)

Each sets `self.running = True`, then issues its command with
`wait_for="running"` (timeout 2.0), then waits for a stop (timeout 5.0).
`ackRecs` are the records drained during the command wait and `stopRecs`
those drained during the stop wait. -/

structure ContResult where
  written : String
  atWrite : SessionState
  final : SessionState

def contOpGen (mi : String) (st : SessionState) (ackRecs stopRecs : List Rec) : ContResult :=
  let st1 : SessionState := { st with running := true }  -- self.running = True
  let (st2, _) := cmdLoop "running" ackRecs st1 none     -- self.cmd(mi, wait_for="running")
  { written := mi, atWrite := st1, final := waitForStopLoop stopRecs st2 }

def runOp : SessionState → List Rec → List Rec → ContResult := contOpGen "-exec-run"
def contOp : SessionState → List Rec → List Rec → ContResult := contOpGen "-exec-continue"
def stepiOp : SessionState → List Rec → List Rec → ContResult :=
  contOpGen "-exec-step-instruction"
def nextiOp : SessionState → List Rec → List Rec → ContResult :=
  contOpGen "-exec-next-instruction"
def stepOp : SessionState → List Rec → List Rec → ContResult := contOpGen "-exec-step"
def nextOp : SessionState → List Rec → List Rec → ContResult := contOpGen "-exec-next"
def finishOp : SessionState → List Rec → List Rec → ContResult := contOpGen "-exec-finish"

/-! ## Breakpoint insertion (gdbmi.py lines 164–166 and 239–248)

Each operation is modelled by the correlated command request it issues:
command line, awaited result class, timeout in seconds. -/

structure CmdReq where
  line : String
  waitFor : Option String
  timeout : Nat
deriving DecidableEq

/-- The earlier, simple `break_insert(spec)` (lines 164–166), shadowed by the
later definition of the same name. -/
def break_insert_simple (spec : String) : CmdReq :=
  { line := "-break-insert " ++ spec, waitFor := some "done", timeout := 2 }

/-- The later, richer `break_insert(spec, condition=None, temporary=False)`
(lines 239–248), the one Python actually binds.  An empty-string condition is
falsy in Python and adds no `-c` modifier. -/
def break_insert_rich (spec : String) (condition : Option String) (temporary : Bool) :
    CmdReq :=
  let c0 := "-break-insert"
  let c1 := if temporary then c0 ++ " -t" else c0
  let c2 := match condition with
    | some c => if c = "" then c1 else c1 ++ " -c \"" ++ c ++ "\""
    | none => c1
  { line := c2 ++ " " ++ spec, waitFor := some "done", timeout := 2 }

/-! ## Payload access and Python truthiness -/

def lookupKV (kvs : Payload) (k : String) : Option Value :=
  (kvs.find? (fun kv => kv.1 == k)).map (fun kv => kv.2)

/-- Python `dict.get(k, d)`. -/
def getKV (kvs : Payload) (k : String) (d : Value) : Value :=
  (lookupKV kvs k).getD d

def pyTruthy : Value → Bool
  | .string s => !s.isEmpty
  | .mapping kvs => !kvs.isEmpty
  | .sequence l => !l.isEmpty

/-! ## Breakpoint toggling (`api_break_toggle`, app.py lines 108–141)

The endpoint parses the requested address with `int(addr, 16)`, fetches the
breakpoint list, and scans it.  `try: have = int(bp_addr, 16) except
ValueError: continue` silently skips unparsable string addresses; a non-string
truthy address raises an uncaught `TypeError` (modelled as `none`), and a
non-mapping breakpoint value raises `AttributeError` at `bp.get`. -/

inductive ToggleOutcome where
  | rejected (reason : String)          -- 400 response before any gdb command
  | deleted (bpnum : Option Value)      -- matched: break_delete(bp.get("number"))
  | inserted (spec : String)            -- no match: break_insert("*" + hex(want))

def toggleScan (want : Int) : List Value → Option ToggleOutcome
  | [] => some (.inserted ("*" ++ pyHex want))
  | bp :: rest =>
      match bp with
      | .mapping kvs =>
          match lookupKV kvs "addr" with
          | none => toggleScan want rest           -- bp.get("addr") is None: falsy, skip
          | some v =>
              if pyTruthy v then
                match v with
                | .string s =>
                    match pyIntHex s with
                    | none => toggleScan want rest -- ValueError: caught, skip
                    | some has =>
                        if has = want then some (.deleted (lookupKV kvs "number"))
                        else toggleScan want rest
                | _ => none                        -- TypeError from int(v, 16): uncaught
              else toggleScan want rest            -- falsy (e.g. ""): skip
      | _ => none                                  -- bp.get on a non-dict: AttributeError

/-- The toggle endpoint body after session/JSON handling: `addr` is the
request's `addr` field, `bps` the fetched breakpoint list. -/
def api_break_toggle (addr : Option String) (bps : List Value) : Option ToggleOutcome :=
  match addr with
  | none => some (.rejected "Missing addr")
  | some a =>
      if a = "" then some (.rejected "Missing addr")   -- `if not addr`
      else match pyIntHex a with
        | none => some (.rejected ("Bad addr: " ++ a)) -- ValueError on int(addr, 16)
        | some want => toggleScan want bps

/-! ## Snapshot raw-stack section (`GdbMiSession.snapshot`, lines 204–224)

`regmap` is the register map assembled by the register section of the same
snapshot call (name → value string); `memReply` is the result record of the
`-data-read-memory-bytes` round trip (`none` when `cmd` timed out and
returned `{}`). -/

structure StackEntry where
  addr : String
  qword : String
  ascii : String
deriving DecidableEq

/-- `int.from_bytes(chunk, "little")`. -/
def fromLE (chunk : List Nat) : Nat := chunk.foldr (fun b acc => b + 256 * acc) 0

/-- `"".join(chr(b) if 32 <= b <= 126 else "." for b in chunk)`. -/
def asciiOf (chunk : List Nat) : String :=
  String.mk (chunk.map (fun b => if 32 ≤ b ∧ b ≤ 126 then Char.ofNat b else '.'))

def mkStackEntry (raw : List Nat) (base : Int) (i : Nat) : StackEntry :=
  let chunk := (raw.drop i).take 8
  { addr := pyHex (base + (i : Int))
    qword := pyHex ((fromLE chunk : Nat) : Int)
    ascii := asciiOf chunk }

/-- `for i in range(0, n, 8)` with `n = min(len(raw), 256)`; fuel-driven
(the wrapper passes `n + 1`, at least one unit per loop iteration). -/
def stackRowsGo (raw : List Nat) (base : Int) : Nat → Nat → Nat → List StackEntry
  | 0, _, _ => []
  | f + 1, i, n =>
      if i < n then mkStackEntry raw base i :: stackRowsGo raw base f (i + 8) n else []

def stackRows (raw : List Nat) (base : Int) : List StackEntry :=
  stackRowsGo raw base (min raw.length 256 + 1) 0 (min raw.length 256)

/-- `mem.get("payload", {})`: stream records carry no payload key; a timed
out `cmd` returned `{}`. -/
def recPayload : Option Rec → Payload
  | some (.result _ p) => p
  | some (.async _ p) => p
  | some (.notify _ p) => p
  | some (.stream _ _) => []
  | none => []

/-- The body guarded by `if rsp:` — decode the memory reply and build the
8-byte word view.  `none` models an uncaught exception (`bytes.fromhex` on a
bad hex string or non-string contents, `int(rsp, 16)` on a bad pointer). -/
def stackViewOf (rsp : String) (memReply : Option Rec) : Option (List StackEntry) :=
  let mm := getKV (recPayload memReply) "memory" (Value.sequence [])
  match mm with
  | .sequence (first :: _) =>
      -- `if mm and isinstance(mm, list) and isinstance(mm[0], dict):`
      match first with
      | .mapping kvs =>
          match getKV kvs "contents" (Value.string "") with
          | .string contentsHex =>
              match (if contentsHex = "" then some [] else bytesFromHex contentsHex) with
              | none => none
              | some raw =>
                  match pyIntHex rsp with
                  | none => none
                  | some base => some (stackRows raw base)
          | _ => none  -- bytes.fromhex(non-string): TypeError
      | _ => some []
  | _ => some []       -- mm falsy or not a list: block skipped, stack_view = []

def lookupStr (m : List (String × String)) (k : String) : Option String :=
  (m.find? (fun kv => kv.1 == k)).map (fun kv => kv.2)

/-- The `-data-read-memory-bytes` command issued by the stack section, if
any: `rsp = regmap.get("rsp"); if rsp: mem = self.cmd(f"-data-read-memory-bytes {rsp} 256", ...)`. -/
def stackReadCmd (regmap : List (String × String)) : Option String :=
  match lookupStr regmap "rsp" with
  | some rsp =>
      if rsp = "" then none
      else some ("-data-read-memory-bytes " ++ rsp ++ " 256")
  | none => none

/-- The stack section of the snapshot: empty when the pointer register is
absent or empty, else the decoded view. -/
def snapshotStackSection (regmap : List (String × String)) (memReply : Option Rec) :
    Option (List StackEntry) :=
  match lookupStr regmap "rsp" with
  | some rsp => if rsp = "" then some [] else stackViewOf rsp memReply
  | none => some []

/-! ## Snapshot assembly (lines 226–237)

The register map, frames, disassembly and breakpoint list are the results of
the other independent round trips of the same call; the claims constrain only
the status field and the stack section, so those inputs are passed through. -/

structure Snapshot where
  status : String
  stop : Payload
  registers : List (String × String)
  frames : Value
  disasm : Value
  stack : List StackEntry
  breakpoints : List Value

def snapshotF (st : SessionState) (regmap : List (String × String))
    (framesV disasmV : Value) (memReply : Option Rec) (bps : List Value) :
    Option Snapshot :=
  match snapshotStackSection regmap memReply with
  | none => none
  | some sv =>
      some { status := if st.running then "running" else "stopped"
             stop := st.lastStop
             registers := regmap
             frames := framesV
             disasm := disasmV
             stack := sv
             breakpoints := bps }

/-! ## Fuel stability of the parser

Any fuel of at least `valueFuel v = 2 * v.length + 2` yields the same result,
so `parse_value` genuinely models the unbounded Python recursion. -/

theorem mapPartsRun_congr {pv pv' : List Char → Option Value} {L : Nat}
    (h : ∀ x : List Char, x.length ≤ L → pv x = pv' x) :
    ∀ parts acc, (∀ p ∈ parts, p.length ≤ L) →
      mapPartsRun pv acc parts = mapPartsRun pv' acc parts := by
  intro parts
  induction parts with
  | nil => intro acc _; rfl
  | cons part rest ih =>
      intro acc hlen
      have hpart : part.length ≤ L := hlen part (List.mem_cons_self _ _)
      have hrest : ∀ p ∈ rest, p.length ≤ L := fun p hp => hlen p (List.mem_cons_of_mem _ hp)
      simp only [mapPartsRun]
      rcases hbk : breakAtFirst '=' part with _ | ⟨k, vv⟩
      · exact ih acc hrest
      · have hvv : vv.length ≤ L := by
          have := breakAtFirst_length hbk
          omega
        simp only [h vv hvv]
        rcases pv' vv with _ | pval
        · rfl
        · exact ih _ hrest

theorem seqPartsRun_congr {pv pv' : List Char → Option Value} {L : Nat}
    (h : ∀ x : List Char, x.length ≤ L → pv x = pv' x) :
    ∀ parts, (∀ p ∈ parts, p.length ≤ L) →
      seqPartsRun pv parts = seqPartsRun pv' parts := by
  intro parts
  induction parts with
  | nil => intro _; rfl
  | cons part rest ih =>
      intro hlen
      have hpart : (stripList part).length ≤ L :=
        le_trans (stripList_length_le part) (hlen part (List.mem_cons_self _ _))
      have hrest : ∀ p ∈ rest, p.length ≤ L := fun p hp => hlen p (List.mem_cons_of_mem _ hp)
      simp only [seqPartsRun]
      by_cases hc : (stripList part).contains '=' ∧ ¬ (stripList part).head? = some '{'
      · simp only [if_pos hc]
        rcases hbk : breakAtFirst '=' (stripList part) with _ | ⟨k, vv⟩
        · simp only [h _ hpart]
          rcases pv' (stripList part) with _ | item
          · rfl
          · rw [ih hrest]
        · have hvv : vv.length ≤ L := by
            have := breakAtFirst_length hbk
            omega
          simp only [h vv hvv]
          rcases pv' vv with _ | x
          · rfl
          · rw [ih hrest]
      · simp only [if_neg hc]
        simp only [h _ hpart]
        rcases pv' (stripList part) with _ | item
        · rfl
        · rw [ih hrest]

/-- One-step unfolding of `parseValueF` at successor fuel. -/
theorem parseValueF_succ_eq (f : Nat) (v0 : List Char) :
    parseValueF (f + 1) v0 =
      (match stripList v0 with
      | [] => some (Value.string "")
      | c :: rest =>
          if c = '"' then
            (unquoteChars (stripList v0)).map (fun cs => Value.string (String.mk cs))
          else if c = '{' then
            if stripList rest.dropLast = [] then some (Value.mapping [])
            else (mapPartsRun (parseValueF f) []
              (splitTop ',' (stripList rest.dropLast))).map Value.mapping
          else if c = '[' then
            if stripList rest.dropLast = [] then some (Value.sequence [])
            else (seqPartsRun (parseValueF f)
              (splitTop ',' (stripList rest.dropLast))).map Value.sequence
          else some (Value.string (String.mk (stripList v0)))) := rfl

theorem parseValueF_nil {v0 : List Char} (f : Nat) (h : stripList v0 = []) :
    parseValueF (f + 1) v0 = some (Value.string "") := by
  rw [parseValueF_succ_eq, h]

theorem parseValueF_quote {v0 rest : List Char} (f : Nat) (h : stripList v0 = '"' :: rest) :
    parseValueF (f + 1) v0 =
      (unquoteChars (stripList v0)).map (fun cs => Value.string (String.mk cs)) := by
  rw [parseValueF_succ_eq, h]
  simp

theorem parseValueF_brace {v0 rest : List Char} (f : Nat) (h : stripList v0 = '{' :: rest) :
    parseValueF (f + 1) v0 =
      (if stripList rest.dropLast = [] then some (Value.mapping [])
       else (mapPartsRun (parseValueF f) []
         (splitTop ',' (stripList rest.dropLast))).map Value.mapping) := by
  rw [parseValueF_succ_eq, h]
  simp

theorem parseValueF_brack {v0 rest : List Char} (f : Nat) (h : stripList v0 = '[' :: rest) :
    parseValueF (f + 1) v0 =
      (if stripList rest.dropLast = [] then some (Value.sequence [])
       else (seqPartsRun (parseValueF f)
         (splitTop ',' (stripList rest.dropLast))).map Value.sequence) := by
  rw [parseValueF_succ_eq, h]
  simp

theorem parseValueF_bare {v0 : List Char} {c : Char} {rest : List Char} (f : Nat)
    (h : stripList v0 = c :: rest) (h1 : ¬ c = '"') (h2 : ¬ c = '{') (h3 : ¬ c = '[') :
    parseValueF (f + 1) v0 = some (Value.string (String.mk (stripList v0))) := by
  rw [parseValueF_succ_eq, h]
  simp [h1, h2, h3]

theorem parseValueF_succ : ∀ f v0, valueFuel v0 ≤ f → parseValueF (f + 1) v0 = parseValueF f v0 := by
  intro f
  induction f using Nat.strong_induction_on with
  | _ f ih =>
      intro v0 hf
      have hf2 : 2 ≤ f := by
        unfold valueFuel at hf
        omega
      obtain ⟨f', rfl⟩ : ∃ f', f = f' + 1 := ⟨f - 1, by omega⟩
      rcases hsv : stripList v0 with _ | ⟨c, rest⟩
      · rw [parseValueF_nil (f' + 1) hsv, parseValueF_nil f' hsv]
      · have hv1 : 1 ≤ v0.length := by
          have := stripList_length_le v0
          rw [hsv] at this
          simp at this
          omega
        have hagree : ∀ x : List Char, x.length ≤ v0.length - 1 →
            parseValueF (f' + 1) x = parseValueF f' x := by
          intro x hx
          refine ih f' (by omega) x ?_
          unfold valueFuel at hf ⊢
          omega
        have hparts : ∀ p ∈ splitTop ',' (stripList rest.dropLast),
            p.length ≤ v0.length - 1 := by
          intro p hp
          have h1 := splitTop_piece_length hp
          have h2 := stripList_length_le rest.dropLast
          have h3 : rest.dropLast.length ≤ rest.length := rest.dropLast_sublist.length_le
          have h4 : rest.length + 1 ≤ v0.length := by
            have := stripList_length_le v0
            rw [hsv] at this
            simp at this
            omega
          omega
        by_cases hc1 : c = '"'
        · subst hc1
          rw [parseValueF_quote (f' + 1) hsv, parseValueF_quote f' hsv]
        · by_cases hc2 : c = '{'
          · subst hc2
            rw [parseValueF_brace (f' + 1) hsv, parseValueF_brace f' hsv]
            by_cases hi : stripList rest.dropLast = []
            · simp [hi]
            · simp only [if_neg hi]
              rw [mapPartsRun_congr hagree _ [] hparts]
          · by_cases hc3 : c = '['
            · subst hc3
              rw [parseValueF_brack (f' + 1) hsv, parseValueF_brack f' hsv]
              by_cases hi : stripList rest.dropLast = []
              · simp [hi]
              · simp only [if_neg hi]
                rw [seqPartsRun_congr hagree _ hparts]
            · rw [parseValueF_bare (f' + 1) hsv hc1 hc2 hc3,
                parseValueF_bare f' hsv hc1 hc2 hc3]

theorem parseValueF_stable : ∀ f v, valueFuel v ≤ f →
    parseValueF f v = parseValueF (valueFuel v) v := by
  intro f
  induction f using Nat.strong_induction_on with
  | _ f ih =>
      intro v hf
      rcases Nat.eq_or_lt_of_le hf with h | h
      · rw [h]
      · obtain ⟨f', rfl⟩ : ∃ f', f = f' + 1 := ⟨f - 1, by omega⟩
        rw [parseValueF_succ f' v (by omega)]
        exact ih f' (by omega) v (by omega)

/-- `parse_value` at any sufficient fuel. -/
theorem parse_value_eq (s : String) {f : Nat} (hf : valueFuel s.data ≤ f) :
    parse_value s = parseValueF f s.data := by
  unfold parse_value
  rw [parseValueF_stable f s.data hf]

/-! ## Totality of the parser on backslash-free input

`parse_value` can only raise inside `unicode_escape`, and every escape needs
a backslash, so backslash-free fragments always parse. -/

theorem uescGo_no92 : ∀ f (bs : List Nat), bs.length < f → (∀ b ∈ bs, b ≠ 92) →
    (uescGo f bs).isSome := by
  intro f
  induction f with
  | zero => intro bs h _; omega
  | succ f ih =>
      intro bs hlen hbs
      match bs with
      | [] => simp [uescGo]
      | b :: rest =>
          have hb : ¬ b = 92 := hbs b (List.mem_cons_self _ _)
          simp only [uescGo, if_neg hb]
          have := ih rest (by simp at hlen ⊢; omega)
            (fun x hx => hbs x (List.mem_cons_of_mem _ hx))
          rcases hr : uescGo f rest with _ | t
          · rw [hr] at this; simp at this
          · simp

theorem utf8Bytes_no92 {c : Char} (h : ¬ c = '\\') : ∀ b ∈ utf8Bytes c, b ≠ 92 := by
  intro b hb
  have hc : c.toNat ≠ 92 := by
    intro he
    exact h (by rw [← Char.ofNat_toNat c, he])
  simp only [utf8Bytes] at hb
  split at hb
  · simp at hb
    omega
  · split at hb
    · simp at hb
      rcases hb with hb | hb <;> omega
    · split at hb
      · simp at hb
        rcases hb with hb | hb | hb <;> omega
      · simp at hb
        rcases hb with hb | hb | hb | hb <;> omega

theorem unquoteChars_noBS {s : List Char} (h : ∀ c ∈ s, c ≠ '\\') :
    (unquoteChars s).isSome := by
  unfold unquoteChars
  split
  · unfold unicodeEscapeBytes
    have h92 : ∀ b ∈ utf8Encode ((s.drop 1).dropLast), b ≠ 92 := by
      intro b hb
      unfold utf8Encode at hb
      rw [List.mem_flatten] at hb
      rcases hb with ⟨l, hl, hbl⟩
      rw [List.mem_map] at hl
      rcases hl with ⟨c, hc, rfl⟩
      have hcs : c ∈ s :=
        (List.drop_sublist 1 s).mem ((List.dropLast_sublist _).mem hc)
      exact utf8Bytes_no92 (h c hcs) b hbl
    have := uescGo_no92 (utf8Encode ((s.drop 1).dropLast)).length.succ
      (utf8Encode ((s.drop 1).dropLast)) (Nat.lt_succ_self _) h92
    rcases hr : uescGo ((utf8Encode ((s.drop 1).dropLast)).length + 1)
        (utf8Encode ((s.drop 1).dropLast)) with _ | t
    · rw [hr] at this; simp at this
    · simp [hr]
  · simp

theorem mapPartsRun_total {pv : List Char → Option Value} :
    ∀ parts : List (List Char),
      (∀ p ∈ parts, ∀ k vv, breakAtFirst '=' p = some (k, vv) → (pv vv).isSome) →
      ∀ acc, (mapPartsRun pv acc parts).isSome := by
  intro parts
  induction parts with
  | nil => intro _ acc; simp [mapPartsRun]
  | cons part rest ih =>
      intro h acc
      simp only [mapPartsRun]
      rcases hbk : breakAtFirst '=' part with _ | ⟨k, vv⟩
      · exact ih (fun p hp => h p (List.mem_cons_of_mem _ hp)) acc
      · have := h part (List.mem_cons_self _ _) k vv hbk
        rcases hpv : pv vv with _ | pval
        · rw [hpv] at this; simp at this
        · simp only [hpv]
          exact ih (fun p hp => h p (List.mem_cons_of_mem _ hp)) _

theorem seqPartsRun_total {pv : List Char → Option Value} :
    ∀ parts : List (List Char),
      (∀ p ∈ parts, (pv (stripList p)).isSome ∧
        ∀ k vv, breakAtFirst '=' (stripList p) = some (k, vv) → (pv vv).isSome) →
      (seqPartsRun pv parts).isSome := by
  intro parts
  induction parts with
  | nil => intro _; simp [seqPartsRun]
  | cons part rest ih =>
      intro h
      simp only [seqPartsRun]
      have hhd := h part (List.mem_cons_self _ _)
      have htl := ih (fun p hp => h p (List.mem_cons_of_mem _ hp))
      have hitem :
          (if (stripList part).contains '=' ∧ ¬ (stripList part).head? = some '{' then
            match breakAtFirst '=' (stripList part) with
            | some (k, vv) =>
                (pv vv).map (fun x => Value.mapping [(String.mk (stripList k), x)])
            | none => pv (stripList part)
          else pv (stripList part)).isSome := by
        split
        · rcases hbk : breakAtFirst '=' (stripList part) with _ | ⟨k, vv⟩
          · exact hhd.1
          · have := hhd.2 k vv hbk
            rcases hpv : pv vv with _ | x
            · rw [hpv] at this; simp at this
            · simp [hpv]
        · exact hhd.1
      rcases hit : (if (stripList part).contains '=' ∧ ¬ (stripList part).head? = some '{' then
            match breakAtFirst '=' (stripList part) with
            | some (k, vv) =>
                (pv vv).map (fun x => Value.mapping [(String.mk (stripList k), x)])
            | none => pv (stripList part)
          else pv (stripList part)) with _ | item
      · rw [hit] at hitem; simp at hitem
      · rw [hit]
        rcases hsq : seqPartsRun pv rest with _ | items
        · rw [hsq] at htl; simp at htl
        · simp [hsq]

theorem parseValueF_total : ∀ f v0, valueFuel v0 ≤ f → (∀ c ∈ v0, c ≠ '\\') →
    (parseValueF f v0).isSome := by
  intro f
  induction f using Nat.strong_induction_on with
  | _ f ih =>
      intro v0 hf hbs
      have hf2 : 2 ≤ f := by
        unfold valueFuel at hf
        omega
      obtain ⟨f', rfl⟩ : ∃ f', f = f' + 1 := ⟨f - 1, by omega⟩
      have hbs' : ∀ c ∈ stripList v0, c ≠ '\\' := fun c hc => hbs c (mem_stripList hc)
      rcases hsv : stripList v0 with _ | ⟨c, rest⟩
      · rw [parseValueF_nil f' hsv]
        simp
      · have hv1 : 1 ≤ v0.length := by
          have := stripList_length_le v0
          rw [hsv] at this
          simp at this
          omega
        have hmemrest : ∀ x ∈ rest, x ∈ stripList v0 := by
          intro x hx
          rw [hsv]
          exact List.mem_cons_of_mem _ hx
        have hinner : ∀ x ∈ stripList rest.dropLast, x ≠ '\\' := by
          intro x hx
          exact hbs' x (hmemrest x ((List.dropLast_sublist rest).mem (mem_stripList hx)))
        have hpartlen : ∀ p ∈ splitTop ',' (stripList rest.dropLast),
            valueFuel p ≤ f' ∧ ∀ x ∈ p, x ≠ '\\' := by
          intro p hp
          constructor
          · have h1 := splitTop_piece_length hp
            have h2 := stripList_length_le rest.dropLast
            have h3 : rest.dropLast.length ≤ rest.length := rest.dropLast_sublist.length_le
            have h4 : rest.length + 1 ≤ v0.length := by
              have := stripList_length_le v0
              rw [hsv] at this
              simp at this
              omega
            unfold valueFuel at hf ⊢
            omega
          · intro x hx
            exact hinner x (splitTop_chars hp hx)
        by_cases hc1 : c = '"'
        · subst hc1
          rw [parseValueF_quote f' hsv]
          have : (unquoteChars (stripList v0)).isSome := unquoteChars_noBS hbs'
          rcases hq : unquoteChars (stripList v0) with _ | t
          · rw [hq] at this; simp at this
          · simp [hq]
        · by_cases hc2 : c = '{'
          · subst hc2
            rw [parseValueF_brace f' hsv]
            by_cases hi : stripList rest.dropLast = []
            · simp [hi]
            · simp only [if_neg hi]
              have hmap := @mapPartsRun_total (parseValueF f')
                (splitTop ',' (stripList rest.dropLast)) ?_ []
              · rcases hm : mapPartsRun (parseValueF f') []
                    (splitTop ',' (stripList rest.dropLast)) with _ | d
                · rw [hm] at hmap; simp at hmap
                · simp [hm]
              · intro p hp k vv hbk
                have hpl := hpartlen p hp
                have hvvlen : vv.length + 1 ≤ p.length := by
                  have := breakAtFirst_length hbk
                  omega
                refine ih f' (by omega) vv ?_ ?_
                · unfold valueFuel at hpl ⊢
                  omega
                · intro x hx
                  exact hpl.2 x ((breakAtFirst_chars hbk x).2 hx)
          · by_cases hc3 : c = '['
            · subst hc3
              rw [parseValueF_brack f' hsv]
              by_cases hi : stripList rest.dropLast = []
              · simp [hi]
              · simp only [if_neg hi]
                have hseq := @seqPartsRun_total (parseValueF f')
                  (splitTop ',' (stripList rest.dropLast)) ?_
                · rcases hm : seqPartsRun (parseValueF f')
                      (splitTop ',' (stripList rest.dropLast)) with _ | items
                  · rw [hm] at hseq; simp at hseq
                  · simp [hm]
                · intro p hp
                  have hpl := hpartlen p hp
                  constructor
                  · refine ih f' (by omega) (stripList p) ?_ ?_
                    · have := stripList_length_le p
                      unfold valueFuel at hpl ⊢
                      omega
                    · intro x hx
                      exact hpl.2 x (mem_stripList hx)
                  · intro k vv hbk
                    have hvvlen : vv.length + 1 ≤ (stripList p).length := by
                      have := breakAtFirst_length hbk
                      omega
                    have hsl := stripList_length_le p
                    refine ih f' (by omega) vv ?_ ?_
                    · unfold valueFuel at hpl ⊢
                      omega
                    · intro x hx
                      exact hpl.2 x (mem_stripList ((breakAtFirst_chars hbk x).2 hx))
            · rw [parseValueF_bare f' hsv hc1 hc2 hc3]
              simp

/-! ## Support lemmas for the correlation loop -/

/-- The record-acceptance test of `cmd`: a result record whose class equals
`wait_for`, or any result record when `wait_for == "any"`. -/
def resultMatches (w : String) : Rec → Bool
  | .result cls _ => w == cls || w == "any"
  | _ => false

theorem cmdLoop_result_spec (w : String) : ∀ (recs : List Rec) (st : SessionState)
    (acc : Option Rec),
    (∀ r, recs.find? (resultMatches w) = some r → (cmdLoop w recs st acc).2 = some r) ∧
    (recs.find? (resultMatches w) = none →
      (cmdLoop w recs st acc).2 = (recs.reverse.find? Rec.isResult).or acc) := by
  intro recs
  induction recs with
  | nil =>
      intro st acc
      refine ⟨fun r hr => by simp at hr, fun _ => ?_⟩
      simp [cmdLoop]
  | cons r rest ih =>
      intro st acc
      match r with
      | .async cls p =>
          have hm : resultMatches w (.async cls p) = false := rfl
          have hnr : Rec.isResult (.async cls p) = false := rfl
          constructor
          · intro r' hr'
            rw [List.find?_cons_of_neg _ (by simp [hm])] at hr'
            simp only [cmdLoop]
            split
            · exact (ih _ acc).1 r' hr'
            · exact (ih _ acc).1 r' hr'
          · intro hnone
            rw [List.find?_cons_of_neg _ (by simp [hm])] at hnone
            have hrev : ((Rec.async cls p :: rest).reverse.find? Rec.isResult) =
                rest.reverse.find? Rec.isResult := by
              rw [List.reverse_cons, List.find?_append]
              simp [List.find?, hnr]
            rw [hrev]
            simp only [cmdLoop]
            split
            · exact (ih _ acc).2 hnone
            · exact (ih _ acc).2 hnone
      | .notify cls p =>
          have hm : resultMatches w (.notify cls p) = false := rfl
          have hnr : Rec.isResult (.notify cls p) = false := rfl
          constructor
          · intro r' hr'
            rw [List.find?_cons_of_neg _ (by simp [hm])] at hr'
            exact (ih _ acc).1 r' hr'
          · intro hnone
            rw [List.find?_cons_of_neg _ (by simp [hm])] at hnone
            have hrev : ((Rec.notify cls p :: rest).reverse.find? Rec.isResult) =
                rest.reverse.find? Rec.isResult := by
              rw [List.reverse_cons, List.find?_append]
              simp [List.find?, hnr]
            rw [hrev]
            exact (ih _ acc).2 hnone
      | .stream chan text =>
          have hm : resultMatches w (.stream chan text) = false := rfl
          have hnr : Rec.isResult (.stream chan text) = false := rfl
          constructor
          · intro r' hr'
            rw [List.find?_cons_of_neg _ (by simp [hm])] at hr'
            exact (ih _ acc).1 r' hr'
          · intro hnone
            rw [List.find?_cons_of_neg _ (by simp [hm])] at hnone
            have hrev : ((Rec.stream chan text :: rest).reverse.find? Rec.isResult) =
                rest.reverse.find? Rec.isResult := by
              rw [List.reverse_cons, List.find?_append]
              simp [List.find?, hnr]
            rw [hrev]
            exact (ih _ acc).2 hnone
      | .result cls p =>
          by_cases hm : resultMatches w (.result cls p) = true
          · constructor
            · intro r' hr'
              rw [List.find?_cons_of_pos _ hm] at hr'
              have hcase : w = cls ∨ w = "any" := by
                simp [resultMatches] at hm
                rcases hm with hm | hm
                · exact Or.inl hm
                · exact Or.inr hm
              simp only [cmdLoop]
              cases hr'
              rcases hcase with hc | hc
              · rw [if_pos hc]
              · by_cases hc2 : w = cls
                · rw [if_pos hc2]
                · rw [if_neg hc2, if_pos hc]
            · intro hnone
              rw [List.find?_cons_of_pos _ hm] at hnone
              cases hnone
          · have hm' : resultMatches w (.result cls p) = false := by
              simpa using hm
            have hne : ¬ w = cls ∧ ¬ w = "any" := by
              simp [resultMatches] at hm'
              exact hm'
            have hstep : cmdLoop w (Rec.result cls p :: rest) st acc =
                cmdLoop w rest st (some (.result cls p)) := by
              simp only [cmdLoop]
              rw [if_neg hne.1, if_neg hne.2]
            constructor
            · intro r' hr'
              rw [List.find?_cons_of_neg _ (by simp [hm'])] at hr'
              rw [hstep]
              exact (ih _ _).1 r' hr'
            · intro hnone
              rw [List.find?_cons_of_neg _ (by simp [hm'])] at hnone
              rw [hstep]
              have hrev : ((Rec.result cls p :: rest).reverse.find? Rec.isResult) =
                  (rest.reverse.find? Rec.isResult).or (some (.result cls p)) := by
                rw [List.reverse_cons, List.find?_append]
                simp [List.find?, Rec.isResult]
              rw [hrev, (ih _ (some (.result cls p))).2 hnone, Option.or_assoc]
              rfl

/-- A correlation wait that drains no async `stopped` record leaves the
session state untouched. -/
theorem cmdLoop_state_no_stop : ∀ (recs : List Rec) (w : String) (st : SessionState)
    (acc : Option Rec), (∀ r ∈ recs, r.isAsyncStopped = false) →
    (cmdLoop w recs st acc).1 = st := by
  intro recs
  induction recs with
  | nil => intro w st acc _; rfl
  | cons r rest ih =>
      intro w st acc h
      have hr := h r (List.mem_cons_self _ _)
      have htl := fun x hx => h x (List.mem_cons_of_mem _ hx)
      match r with
      | .async cls p =>
          have hcls : ¬ cls = "stopped" := by
            simpa [Rec.isAsyncStopped] using hr
          simp only [cmdLoop, if_neg hcls]
          exact ih w st acc htl
      | .result cls p =>
          simp only [cmdLoop]
          split
          · rfl
          · split
            · rfl
            · exact ih w st _ htl
      | .notify cls p => exact ih w st acc htl
      | .stream chan text => exact ih w st acc htl

theorem waitForStopLoop_no_stop : ∀ (recs : List Rec) (st : SessionState),
    (∀ r ∈ recs, r.isAsyncStopped = false) → waitForStopLoop recs st = st := by
  intro recs
  induction recs with
  | nil => intro st _; rfl
  | cons r rest ih =>
      intro st h
      have hr := h r (List.mem_cons_self _ _)
      have htl := fun x hx => h x (List.mem_cons_of_mem _ hx)
      match r with
      | .async cls p =>
          have hcls : ¬ cls = "stopped" := by
            simpa [Rec.isAsyncStopped] using hr
          simp only [waitForStopLoop, if_neg hcls]
          exact ih st htl
      | .result cls p => exact ih st htl
      | .notify cls p => exact ih st htl
      | .stream chan text => exact ih st htl

/-! ## Compositional description of the `[...]` branch (claim C6) -/

/-- Specification-level parse of one element of a bracketed sequence, phrased
with the top-level `parse_value` (no fuel): a `key=value` element (one that
contains `=` and does not start with `{`) becomes a single-entry mapping from
the stripped key to the recursively parsed value; any other element is a bare
recursively parsed value. -/
def seqElemSpec (part : List Char) : Option Value :=
  let p := stripList part
  if p.contains '=' ∧ ¬ p.head? = some '{' then
    match breakAtFirst '=' p with
    | some (k, vv) =>
        (parse_value (String.mk vv)).map (fun x => Value.mapping [(String.mk (stripList k), x)])
    | none => parse_value (String.mk p)
  else parse_value (String.mk p)

theorem seqPartsRun_eq_mapM : ∀ parts : List (List Char),
    seqPartsRun (fun cs => parse_value (String.mk cs)) parts = parts.mapM seqElemSpec := by
  intro parts
  induction parts with
  | nil => rfl
  | cons part rest ih =>
      simp only [seqPartsRun, List.mapM_cons]
      show (match seqElemSpec part with
        | some item =>
            (seqPartsRun (fun cs => parse_value (String.mk cs)) rest).map
              (fun items => item :: items)
        | none => none) = _
      rcases hs : seqElemSpec part with _ | item
      · simp
      · rw [ih]
        rcases hm : rest.mapM seqElemSpec with _ | items
        · simp
        · simp

/-- A fragment that starts and ends with non-whitespace characters strips to
itself. -/
theorem stripList_bracketed {o cl : Char} (body : List Char)
    (ho : pyIsSpace o = false) (hcl : pyIsSpace cl = false) :
    stripList (o :: (body ++ [cl])) = o :: (body ++ [cl]) := by
  unfold stripList
  rw [List.dropWhile_cons_of_neg (by simp [ho])]
  rw [List.reverse_cons, List.reverse_append]
  simp only [List.reverse_cons, List.reverse_nil, List.nil_append, List.cons_append,
    List.singleton_append]
  rw [List.dropWhile_cons_of_neg (by simp [hcl])]
  simp

/-- `parse_value` on a whole bracketed sequence fragment, described
compositionally: split the interior at top-level commas and parse each
element with `seqElemSpec`. -/
theorem parse_value_seq_frag (body : List Char) :
    parse_value (String.mk ('[' :: (body ++ [']']))) =
      (if stripList body = [] then some (Value.sequence [])
       else ((splitTop ',' (stripList body)).mapM seqElemSpec).map Value.sequence) := by
  have hstrip : stripList ('[' :: (body ++ [']'])) = '[' :: (body ++ [']']) :=
    stripList_bracketed body rfl rfl
  have hdata : (String.mk ('[' :: (body ++ [']']))).data = '[' :: (body ++ [']']) := rfl
  have hfuel : valueFuel ('[' :: (body ++ [']'])) = (2 * body.length + 5) + 1 := by
    unfold valueFuel
    simp
    omega
  unfold parse_value
  rw [hdata, hfuel, parseValueF_brack (2 * body.length + 5) hstrip]
  rw [List.dropLast_concat]
  by_cases hi : stripList body = []
  · rw [if_pos hi, if_pos hi]
  · rw [if_neg hi, if_neg hi]
    have hcong : seqPartsRun (parseValueF (2 * body.length + 5)) (splitTop ',' (stripList body)) =
        seqPartsRun (fun cs => parse_value (String.mk cs)) (splitTop ',' (stripList body)) := by
      apply seqPartsRun_congr (L := body.length)
      · intro x hx
        have : valueFuel x ≤ 2 * body.length + 5 := by
          unfold valueFuel
          omega
        rw [parseValueF_stable _ x this]
        rfl
      · intro p hp
        have h1 := splitTop_piece_length hp
        have h2 := stripList_length_le body
        omega
    rw [hcong, seqPartsRun_eq_mapM]

/-! ## Toggle-by-address support (claim C7) -/

/-- The matching test of the toggle loop: the entry is a mapping with a
present, string-valued, hex-parsable `addr` equal to the wanted address. -/
def bpMatches (want : Int) : Value → Bool
  | .mapping kvs =>
      match lookupKV kvs "addr" with
      | some (.string s) =>
          match pyIntHex s with
          | some has => has == want
          | none => false
      | _ => false
  | _ => false

/-- Well-formedness per the spec's breakpoint data model: each entry is a
mapping whose `addr` field, when present, is a (hex) string. -/
def bpAddrOk (bp : Value) : Prop :=
  ∃ kvs, bp = Value.mapping kvs ∧
    (lookupKV kvs "addr" = none ∨ ∃ s, lookupKV kvs "addr" = some (Value.string s))

theorem toggleScan_spec (want : Int) : ∀ bps : List Value,
    (∀ bp ∈ bps, bpAddrOk bp) →
    (bps.find? (bpMatches want) = none →
      toggleScan want bps = some (.inserted ("*" ++ pyHex want))) ∧
    (∀ bp, bps.find? (bpMatches want) = some bp →
      ∃ kvs, bp = Value.mapping kvs ∧
        toggleScan want bps = some (.deleted (lookupKV kvs "number"))) := by
  intro bps
  induction bps with
  | nil =>
      intro _
      exact ⟨fun _ => rfl, fun bp hbp => by simp at hbp⟩
  | cons bp rest ih =>
      intro hwf
      obtain ⟨kvs, rfl, haddr⟩ := hwf bp (List.mem_cons_self _ _)
      have hwfr := fun x hx => hwf x (List.mem_cons_of_mem _ hx)
      rcases haddr with hnone | ⟨s, hs⟩
      · -- addr absent: skipped, and bpMatches is false
        have hm : bpMatches want (Value.mapping kvs) = false := by
          simp [bpMatches, hnone]
        have hstep : toggleScan want (Value.mapping kvs :: rest) = toggleScan want rest := by
          simp only [toggleScan, hnone]
        constructor
        · intro hfind
          rw [List.find?_cons_of_neg _ (by simp [hm])] at hfind
          rw [hstep]
          exact (ih hwfr).1 hfind
        · intro bp' hfind
          rw [List.find?_cons_of_neg _ (by simp [hm])] at hfind
          rw [hstep]
          exact (ih hwfr).2 bp' hfind
      · by_cases hse : s = ""
        · -- empty addr string: falsy, skipped; it cannot parse as hex either
          subst hse
          have hm : bpMatches want (Value.mapping kvs) = false := by
            simp [bpMatches, hs]
            rfl
          have hstep : toggleScan want (Value.mapping kvs :: rest) = toggleScan want rest := by
            simp only [toggleScan, hs]
            rfl
          constructor
          · intro hfind
            rw [List.find?_cons_of_neg _ (by simp [hm])] at hfind
            rw [hstep]
            exact (ih hwfr).1 hfind
          · intro bp' hfind
            rw [List.find?_cons_of_neg _ (by simp [hm])] at hfind
            rw [hstep]
            exact (ih hwfr).2 bp' hfind
        · have htr : pyTruthy (Value.string s) = true := by
            simp only [pyTruthy, Bool.not_eq_true']
            rw [← Bool.not_eq_true]
            intro h
            exact hse ((String.isEmpty_iff s).mp h)
          rcases hph : pyIntHex s with _ | has
          · -- ValueError: silently skipped
            have hm : bpMatches want (Value.mapping kvs) = false := by
              simp [bpMatches, hs, hph]
            have hstep : toggleScan want (Value.mapping kvs :: rest) = toggleScan want rest := by
              simp only [toggleScan, hs, htr, hph]
              simp
            constructor
            · intro hfind
              rw [List.find?_cons_of_neg _ (by simp [hm])] at hfind
              rw [hstep]
              exact (ih hwfr).1 hfind
            · intro bp' hfind
              rw [List.find?_cons_of_neg _ (by simp [hm])] at hfind
              rw [hstep]
              exact (ih hwfr).2 bp' hfind
          · by_cases heq : has = want
            · -- numeric match: delete this breakpoint and stop
              have hm : bpMatches want (Value.mapping kvs) = true := by
                simp [bpMatches, hs, hph, heq]
              have hstep : toggleScan want (Value.mapping kvs :: rest) =
                  some (.deleted (lookupKV kvs "number")) := by
                simp only [toggleScan, hs, htr, hph]
                simp [heq]
              constructor
              · intro hfind
                rw [List.find?_cons_of_pos _ hm] at hfind
                cases hfind
              · intro bp' hfind
                rw [List.find?_cons_of_pos _ hm] at hfind
                cases hfind
                exact ⟨kvs, rfl, hstep⟩
            · have hm : bpMatches want (Value.mapping kvs) = false := by
                simp [bpMatches, hs, hph]
                exact heq
              have hstep : toggleScan want (Value.mapping kvs :: rest) =
                  toggleScan want rest := by
                simp only [toggleScan, hs, htr, hph]
                simp [heq]
              constructor
              · intro hfind
                rw [List.find?_cons_of_neg _ (by simp [hm])] at hfind
                rw [hstep]
                exact (ih hwfr).1 hfind
              · intro bp' hfind
                rw [List.find?_cons_of_neg _ (by simp [hm])] at hfind
                rw [hstep]
                exact (ih hwfr).2 bp' hfind

/-! ## Stack-word decoding (claim C8) -/

theorem stackRowsGo_eq (raw : List Nat) (base : Int) :
    ∀ (f i n : Nat), n ≤ i + 8 * f →
      stackRowsGo raw base f i n =
        (List.range ((n - i + 7) / 8)).map (fun k => mkStackEntry raw base (i + 8 * k)) := by
  intro f
  induction f with
  | zero =>
      intro i n h
      have : (n - i + 7) / 8 = 0 := by omega
      simp [stackRowsGo, this]
  | succ f ih =>
      intro i n h
      simp only [stackRowsGo]
      by_cases hin : i < n
      · rw [if_pos hin, ih (i + 8) n (by omega)]
        have hcount : (n - i + 7) / 8 = ((n - (i + 8) + 7) / 8) + 1 := by omega
        rw [hcount, List.range_succ_eq_map, List.map_cons, List.map_map]
        refine List.cons_eq_cons.mpr ⟨by norm_num, ?_⟩
        apply List.map_congr_left
        intro a _
        show mkStackEntry raw base (i + 8 + 8 * a) = mkStackEntry raw base (i + 8 * (a + 1))
        congr 1
        omega
      · rw [if_neg hin]
        have : (n - i + 7) / 8 = 0 := by omega
        simp [this]

theorem stackRows_eq (raw : List Nat) (base : Int) :
    stackRows raw base =
      (List.range ((min raw.length 256 + 7) / 8)).map
        (fun k => mkStackEntry raw base (8 * k)) := by
  unfold stackRows
  rw [stackRowsGo_eq raw base (min raw.length 256 + 1) 0 (min raw.length 256) (by omega)]
  simp

/-! ## The classifier-implied matching predicate (claim C4)

The scanner state of `_split_top` over a whole fragment; a fragment is
"matched" when the scan ends outside any string with balanced brackets that
never dipped below depth 0. -/

structure ScanState where
  depth : Int
  inStr : Bool
  esc : Bool
  minDepth : Int

def scanStep (s : ScanState) (c : Char) : ScanState :=
  if s.inStr then { s with inStr := inStrStep c s.esc, esc := escStep c s.esc }
  else if c = '"' then { s with inStr := true }
  else
    { s with depth := depthStep c s.depth, minDepth := min s.minDepth (depthStep c s.depth) }

def scanChars (cs : List Char) : ScanState := cs.foldl scanStep ⟨0, false, false, 0⟩

/-- Quotes and brackets matched as implied by the `_split_top` classifier
scanner: the scan ends with the string closed, no pending escape, depth 0,
and the depth never went negative. -/
def matchedFragment (cs : List Char) : Bool :=
  let s := scanChars cs
  !s.inStr && !s.esc && (s.depth == 0) && decide (0 ≤ s.minDepth)

/-! ## Claims -/

/-- C1: for every call to `cmd` with a non-`None` `wait_for` on an active
session, the call returns the first `result` record drained from the queue
whose class equals `wait_for` (or any `result` record when `wait_for` is the
wildcard `"any"`) as soon as it is seen; if the deadline elapses (the drained
list is exhausted) before such a record appears, it returns the last `result`
record observed — `none`, modelling the empty mapping `{}`, if none arrived —
and never raises. -/
theorem claim_C1 (w : String) (recs : List Rec) (st : SessionState) :
    (∀ r, recs.find? (resultMatches w) = some r → (cmdF (some w) recs st).2 = some r) ∧
    (recs.find? (resultMatches w) = none →
      (cmdF (some w) recs st).2 = recs.reverse.find? Rec.isResult) := by
  have h := cmdLoop_result_spec w recs st none
  unfold cmdF
  refine ⟨h.1, fun hn => ?_⟩
  rw [h.2 hn]
  rcases recs.reverse.find? Rec.isResult with _ | r <;> rfl

theorem claim_C1_witness :
    (cmdF (some "done") [Rec.stream "console" "hi", Rec.result "done" []] initSession).2 =
        some (Rec.result "done" []) ∧
    (cmdF (some "running") [Rec.result "error" []] initSession).2 =
        some (Rec.result "error" []) := by
  constructor
  · exact (claim_C1 "done" [Rec.stream "console" "hi", Rec.result "done" []] initSession).1
      (Rec.result "done" []) rfl
  · exact ((claim_C1 "running" [Rec.result "error" []] initSession).2 rfl).trans rfl

/-- C2: during every correlated wait (the `cmd` polling loop and the
dedicated `_wait_for_stop`), a drained async record of class `stopped`
replaces `last_stop` wholesale with its payload and clears `running`, while a
drained async record of any other class and every notify and stream record
leaves the state unchanged and is discarded (it affects neither the state nor
the outcome of the wait). -/
theorem claim_C2 (w : String) (st : SessionState) (acc : Option Rec) (cls : String)
    (p : Payload) (rest : List Rec) (chan text : String) :
    (cmdLoop w (Rec.async cls p :: rest) st acc =
      (if cls = "stopped" then cmdLoop w rest { lastStop := p, running := false } acc
       else cmdLoop w rest st acc)) ∧
    (cmdLoop w (Rec.notify cls p :: rest) st acc = cmdLoop w rest st acc) ∧
    (cmdLoop w (Rec.stream chan text :: rest) st acc = cmdLoop w rest st acc) ∧
    (waitForStopLoop (Rec.async cls p :: rest) st =
      (if cls = "stopped" then { lastStop := p, running := false }
       else waitForStopLoop rest st)) ∧
    (waitForStopLoop (Rec.notify cls p :: rest) st = waitForStopLoop rest st) ∧
    (waitForStopLoop (Rec.stream chan text :: rest) st = waitForStopLoop rest st) :=
  ⟨rfl, rfl, rfl, rfl, rfl, rfl⟩

/-- C3 counterexample: the claim that the `running` flag becomes true only
after the `"running"` acknowledgement is correlated is false: `run()` (like
every continuation operation) sets `self.running = True` before writing the
command, so with no drained records at all — no acknowledgement was ever
correlated — the flag is already true at the write and still true at the
end. -/
theorem claim_C3_counterexample :
    (runOp initSession [] []).atWrite.running = true ∧
    (runOp initSession [] []).final.running = true ∧
    ([] : List Rec).find? (resultMatches "running") = none :=
  ⟨rfl, rfl, rfl⟩

/-- C3 (amended): every continuation operation sets the `running` flag to
true unconditionally before its command is issued — not after the `"running"`
acknowledgement is correlated — and the flag then stays true through both
waits unless an async `stopped` record is drained. -/
theorem claim_C3 (mi : String) (st : SessionState) (ack stops : List Rec) :
    (contOpGen mi st ack stops).atWrite = { st with running := true } ∧
    ((∀ r ∈ ack, r.isAsyncStopped = false) → (∀ r ∈ stops, r.isAsyncStopped = false) →
      (contOpGen mi st ack stops).final.running = true) ∧
    runOp = contOpGen "-exec-run" ∧
    contOp = contOpGen "-exec-continue" ∧
    stepiOp = contOpGen "-exec-step-instruction" ∧
    nextiOp = contOpGen "-exec-next-instruction" ∧
    stepOp = contOpGen "-exec-step" ∧
    nextOp = contOpGen "-exec-next" ∧
    finishOp = contOpGen "-exec-finish" := by
  refine ⟨rfl, ?_, rfl, rfl, rfl, rfl, rfl, rfl, rfl⟩
  intro hack hstop
  show (waitForStopLoop stops
    (cmdLoop "running" ack { st with running := true } none).1).running = true
  rw [cmdLoop_state_no_stop ack "running" _ none hack,
    waitForStopLoop_no_stop stops _ hstop]

theorem claim_C3_witness :
    (contOpGen "-exec-run" initSession [Rec.result "running" []] []).final.running = true := by
  refine (claim_C3 "-exec-run" initSession [Rec.result "running" []] []).2.1 ?_ ?_
  · intro r hr
    rcases List.mem_cons.mp hr with h | h
    · subst h; rfl
    · cases h
  · intro r hr
    cases hr

/-- C4 counterexample: the fragment `"\x"` has matched quotes and brackets in
the classifier's sense, yet `parse_value` raises: `unicode_escape` rejects a
`\x` escape with fewer than two hex digits. -/
theorem claim_C4_counterexample :
    matchedFragment "\"\\x\"".data = true ∧ parse_value "\"\\x\"" = none :=
  ⟨rfl, rfl⟩

/-- C4 (amended): `parse_value` is a pure function of its argument
(deterministic and side-effect-free by construction), and it returns a value
without raising for every fragment that contains no backslash; the sole
failure source is the C-style unescaping of quoted strings, which can raise
on a malformed escape such as `\x` without two hex digits even when the
fragment is classifier-matched. -/
theorem claim_C4 (s : String) (h : ∀ c ∈ s.data, c ≠ '\\') :
    ∃ val, parse_value s = some val := by
  have htot := parseValueF_total (valueFuel s.data) s.data le_rfl h
  unfold parse_value
  rcases hp : parseValueF (valueFuel s.data) s.data with _ | val
  · rw [hp] at htot; simp at htot
  · exact ⟨val, rfl⟩

theorem claim_C4_witness :
    (∀ c ∈ "\x7ba=[1,2]\x7d".data, c ≠ '\\') ∧ (∃ val, parse_value "\x7ba=[1,2]\x7d" = some val) :=
  ⟨by decide, claim_C4 "\x7ba=[1,2]\x7d" (by decide)⟩

/-- C5: top-level splitting never splits at a separator drained while the
scanner is inside a quoted string — the in-string branch appends the comma to
the current fragment for every bracket depth, so quote state is tracked
independently of depth even when the quoted string holds unbalanced brackets
— and the value `"he said \"hi\", ok"` parses as one string containing the
embedded comma and quotes; a quoted string with unbalanced brackets and an
inner comma stays one fragment while a genuine top-level comma still
splits. -/
theorem claim_C5 :
    (∀ (rest : List Char) (out : List (List Char)) (buf : List Char)
        (depth : Int) (esc : Bool),
      splitTopGo ',' (',' :: rest) out buf depth true esc =
        splitTopGo ',' rest out (buf ++ [',']) depth true false) ∧
    parse_value "\"he said \\\"hi\\\", ok\"" = some (Value.string "he said \"hi\", ok") ∧
    splitTop ',' ("\"a[\x7b,x\",y".data) = ["\"a[\x7b,x\"".data, "y".data] := by
  refine ⟨?_, rfl, rfl⟩
  intro rest out buf depth esc
  show splitTopGo ',' rest out (buf ++ [',']) depth (inStrStep ',' esc) (escStep ',' esc) =
    splitTopGo ',' rest out (buf ++ [',']) depth true false
  cases esc <;> rfl

/-- C6: for every bracketed sequence fragment `[body]`, `parse_value` splits
the interior at top-level commas and parses each element through
`seqElemSpec` — a `key=value` element becomes a single-entry mapping from the
key to the recursively parsed value, every other element a bare recursively
parsed value — and in particular `{a="1",b=[{c="2"},"3"]}` parses to the
mapping with `a ↦ "1"` and `b ↦ [ {c ↦ "2"}, "3" ]`. -/
theorem claim_C6 :
    (∀ body : List Char,
      parse_value (String.mk ('[' :: (body ++ [']']))) =
        (if stripList body = [] then some (Value.sequence [])
         else ((splitTop ',' (stripList body)).mapM seqElemSpec).map Value.sequence)) ∧
    parse_value "\x7ba=\"1\",b=[\x7bc=\"2\"\x7d,\"3\"]\x7d" =
      some (Value.mapping [("a", Value.string "1"),
        ("b", Value.sequence [Value.mapping [("c", Value.string "2")],
          Value.string "3"])]) :=
  ⟨parse_value_seq_frag, rfl⟩

/-- C7: `toggleBreakpointAtAddress` parses the caller's hex string to an
integer; over a breakpoint list whose `addr` fields (when present) are
strings (the spec's breakpoint data model), it deletes — and returns the
`number` of — the first breakpoint whose present, hex-parsable `addr` equals
that integer numerically (leading zeros, case and `0x` prefix are immaterial
since comparison is on parsed integers), silently skipping breakpoints whose
`addr` is missing, empty or not hex-parsable; only when no breakpoint matches
does it insert a new breakpoint at `*<canonical hex>` of the address. -/
theorem claim_C7 (addr : String) (want : Int) (bps : List Value)
    (haddr : pyIntHex addr = some want) (hwf : ∀ bp ∈ bps, bpAddrOk bp) :
    (bps.find? (bpMatches want) = none →
      api_break_toggle (some addr) bps = some (.inserted ("*" ++ pyHex want))) ∧
    (∀ bp, bps.find? (bpMatches want) = some bp →
      ∃ kvs, bp = Value.mapping kvs ∧
        api_break_toggle (some addr) bps = some (.deleted (lookupKV kvs "number"))) := by
  have hne : ¬ addr = "" := by
    intro h
    rw [h, show pyIntHex "" = none from rfl] at haddr
    cases haddr
  have happ : api_break_toggle (some addr) bps = toggleScan want bps := by
    unfold api_break_toggle
    simp only [if_neg hne, haddr]
  rw [happ]
  exact toggleScan_spec want bps hwf

theorem claim_C7_witness :
    api_break_toggle (some "401000")
        [Value.mapping [("number", Value.string "1"), ("addr", Value.string "0x00401000")]] =
      some (ToggleOutcome.deleted (some (Value.string "1"))) ∧
    api_break_toggle (some "401000") [Value.mapping [("addr", Value.string "zz")]] =
      some (ToggleOutcome.inserted "*0x401000") ∧
    api_break_toggle (some "0X4a10F0")
        [Value.mapping [("number", Value.string "2"), ("addr", Value.string "0x004A10f0")]] =
      some (ToggleOutcome.deleted (some (Value.string "2"))) := by
  refine ⟨?_, ?_, ?_⟩
  · have h := (claim_C7 "401000" 4198400
      [Value.mapping [("number", Value.string "1"), ("addr", Value.string "0x00401000")]]
      rfl ?wf).2
      (Value.mapping [("number", Value.string "1"), ("addr", Value.string "0x00401000")]) rfl
    case wf =>
      intro bp hbp
      rcases List.mem_cons.mp hbp with h | h
      · subst h
        exact ⟨_, rfl, Or.inr ⟨"0x00401000", rfl⟩⟩
      · cases h
    obtain ⟨kvs, hk, happ⟩ := h
    cases hk
    exact happ.trans rfl
  · have h := (claim_C7 "401000" 4198400 [Value.mapping [("addr", Value.string "zz")]]
      rfl ?wf2).1 rfl
    case wf2 =>
      intro bp hbp
      rcases List.mem_cons.mp hbp with h | h
      · subst h
        exact ⟨_, rfl, Or.inr ⟨"zz", rfl⟩⟩
      · cases h
    exact h.trans rfl
  · have h := (claim_C7 "0X4a10F0" 4854000
      [Value.mapping [("number", Value.string "2"), ("addr", Value.string "0x004A10f0")]]
      rfl ?wf3).2
      (Value.mapping [("number", Value.string "2"), ("addr", Value.string "0x004A10f0")]) rfl
    case wf3 =>
      intro bp hbp
      rcases List.mem_cons.mp hbp with h | h
      · subst h
        exact ⟨_, rfl, Or.inr ⟨"0x004A10f0", rfl⟩⟩
      · cases h
    obtain ⟨kvs, hk, happ⟩ := h
    cases hk
    exact happ.trans rfl

/-- C8: in `snapshot`, a 256-byte memory read at the pointer address is
issued if and only if the register map holds a non-empty value for `rsp`;
when it is absent or empty the stack section is the empty list, no read
command exists, and the snapshot still assembles; when the reply carries
hex-decodable contents and the pointer parses, the bytes decode into 8-byte
little-endian words, each paired with its base address (pointer value plus
byte offset) and a printable-ASCII rendering with non-printables as `.`. -/
theorem claim_C8 (regmap : List (String × String)) (st : SessionState)
    (framesV disasmV : Value) (memReply : Option Rec) (bps : List Value) :
    ((∃ s, lookupStr regmap "rsp" = some s ∧ ¬ s = "") ↔
      (stackReadCmd regmap).isSome = true) ∧
    (∀ s, lookupStr regmap "rsp" = some s → ¬ s = "" →
      stackReadCmd regmap = some ("-data-read-memory-bytes " ++ s ++ " 256")) ∧
    ((lookupStr regmap "rsp" = none ∨ lookupStr regmap "rsp" = some "") →
      stackReadCmd regmap = none ∧
      snapshotF st regmap framesV disasmV memReply bps =
        some { status := if st.running then "running" else "stopped"
               stop := st.lastStop
               registers := regmap
               frames := framesV
               disasm := disasmV
               stack := []
               breakpoints := bps }) ∧
    (∀ (rsp : String) (kvs : Payload) (mmrest : List Value) (contentsHex : String)
        (raw : List Nat) (base : Int),
      lookupStr regmap "rsp" = some rsp → ¬ rsp = "" →
      getKV (recPayload memReply) "memory" (Value.sequence []) =
        Value.sequence (Value.mapping kvs :: mmrest) →
      getKV kvs "contents" (Value.string "") = Value.string contentsHex →
      ¬ contentsHex = "" →
      bytesFromHex contentsHex = some raw →
      pyIntHex rsp = some base →
      snapshotStackSection regmap memReply =
        some ((List.range ((min raw.length 256 + 7) / 8)).map (fun k =>
          { addr := pyHex (base + ((8 * k : Nat) : Int))
            qword := pyHex ((fromLE ((raw.drop (8 * k)).take 8) : Nat) : Int)
            ascii := asciiOf ((raw.drop (8 * k)).take 8) }))) := by
  refine ⟨⟨?_, ?_⟩, ?_, ?_, ?_⟩
  · rintro ⟨s, hs, hsne⟩
    unfold stackReadCmd
    simp only [hs, if_neg hsne, Option.isSome_some]
  · intro hsome
    rcases hl : lookupStr regmap "rsp" with _ | s
    · unfold stackReadCmd at hsome
      rw [hl] at hsome
      simp at hsome
    · by_cases hsne : s = ""
      · unfold stackReadCmd at hsome
        rw [hl] at hsome
        subst hsne
        simp at hsome
      · exact ⟨s, rfl, hsne⟩
  · intro s hs hsne
    unfold stackReadCmd
    simp only [hs, if_neg hsne]
  · intro hcase
    have hsec : snapshotStackSection regmap memReply = some [] := by
      unfold snapshotStackSection
      rcases hcase with h | h
      · simp only [h]
      · simp only [h, if_pos]
    constructor
    · unfold stackReadCmd
      rcases hcase with h | h
      · simp only [h]
      · simp only [h, if_pos]
    · unfold snapshotF
      rw [hsec]
  · intro rsp kvs mmrest contentsHex raw base hrsp hrne hmem hcont hch hbytes hbase
    unfold snapshotStackSection
    simp only [hrsp, if_neg hrne]
    unfold stackViewOf
    simp only [hmem, hcont, if_neg hch, hbytes, hbase]
    rw [stackRows_eq]
    refine congrArg some (List.map_congr_left ?_)
    intro k _
    rfl

theorem claim_C8_witness :
    stackReadCmd [("rsp", "0x7ffc0000")] = some "-data-read-memory-bytes 0x7ffc0000 256" ∧
    stackReadCmd [("rax", "0x1")] = none ∧
    snapshotStackSection [("rsp", "0x7ffc0000")]
        (some (Rec.result "done" [("memory", Value.sequence [Value.mapping
          [("contents", Value.string "4142434445464748")]])])) =
      some [{ addr := "0x7ffc0000", qword := "0x4847464544434241", ascii := "ABCDEFGH" }] := by
  refine ⟨?_, ?_, ?_⟩
  · exact (claim_C8 [("rsp", "0x7ffc0000")] initSession (Value.sequence [])
      (Value.sequence []) none []).2.1 "0x7ffc0000" rfl (by decide)
  · exact ((claim_C8 [("rax", "0x1")] initSession (Value.sequence [])
      (Value.sequence []) none []).2.2.1 (Or.inl rfl)).1
  · have h := (claim_C8 [("rsp", "0x7ffc0000")] initSession (Value.sequence [])
      (Value.sequence [])
      (some (Rec.result "done" [("memory", Value.sequence [Value.mapping
        [("contents", Value.string "4142434445464748")]])])) []).2.2.2
      "0x7ffc0000" [("contents", Value.string "4142434445464748")] []
      "4142434445464748" [65, 66, 67, 68, 69, 70, 71, 72] 2147221504
      rfl (by decide) rfl rfl (by decide) rfl rfl
    exact h.trans rfl

/-- C9: with no condition and `temporary = False`, the later, richer
`break_insert` — the definition Python actually binds after the second
`def` shadows the first — issues exactly the same correlated request as the
shadowed simple `break_insert`: the line `-break-insert <spec>`, awaiting
result class `done`, with the same 2-second timeout. -/
theorem claim_C9 (spec : String) :
    break_insert_rich spec none false = break_insert_simple spec := by
  show CmdReq.mk (("-break-insert" ++ " ") ++ spec) (some "done") 2 =
    CmdReq.mk ("-break-insert " ++ spec) (some "done") 2
  rw [show ("-break-insert" ++ " ") = "-break-insert " from rfl]

/-- C10: every assembled snapshot's status field is exactly one of
`"running"` and `"stopped"`, determined solely by the session's `running`
flag (`status = "running"` iff the flag is set); a freshly constructed
session has `running = False`, so before any continuation command a snapshot
reports `"stopped"`, indistinguishable from a genuinely stopped debugee. -/
theorem claim_C10 :
    (∀ (st : SessionState) (regmap : List (String × String)) (framesV disasmV : Value)
        (memReply : Option Rec) (bps : List Value) (snap : Snapshot),
      snapshotF st regmap framesV disasmV memReply bps = some snap →
        (snap.status = "running" ∨ snap.status = "stopped") ∧
        (snap.status = "running" ↔ st.running = true)) ∧
    initSession.running = false ∧
    (∀ (regmap : List (String × String)) (framesV disasmV : Value)
        (memReply : Option Rec) (bps : List Value) (snap : Snapshot),
      snapshotF initSession regmap framesV disasmV memReply bps = some snap →
        snap.status = "stopped") := by
  have hmain : ∀ (st : SessionState) (regmap : List (String × String))
      (framesV disasmV : Value) (memReply : Option Rec) (bps : List Value) (snap : Snapshot),
      snapshotF st regmap framesV disasmV memReply bps = some snap →
        (snap.status = "running" ∨ snap.status = "stopped") ∧
        (snap.status = "running" ↔ st.running = true) := by
    intro st regmap framesV disasmV memReply bps snap h
    unfold snapshotF at h
    rcases hsec : snapshotStackSection regmap memReply with _ | sv
    · rw [hsec] at h; cases h
    · rw [hsec] at h
      simp only [Option.some.injEq] at h
      subst h
      rcases hr : st.running with _ | _
      · simp
      · simp
  refine ⟨hmain, rfl, fun regmap f d m bps snap h => ?_⟩
  have := (hmain initSession regmap f d m bps snap h).2
  rcases (hmain initSession regmap f d m bps snap h).1 with hs | hs
  · rw [hs] at this
    have : initSession.running = true := this.mp rfl
    cases this
  · exact hs

theorem claim_C10_witness :
    ∃ snap, snapshotF initSession [] (Value.sequence []) (Value.sequence []) none [] =
      some snap ∧ snap.status = "stopped" := by
  refine ⟨_, rfl, ?_⟩
  exact claim_C10.2.2 [] (Value.sequence []) (Value.sequence []) none [] _ rfl

end WebGdb
